import Mathlib

/-!
Verification of the entry-parsing and journal-walking core of `jrni`
(`src/filedb.rs`), as a shallow embedding in Lean 4.

Modelling conventions:
* `serde_yaml::Value` is modelled by the inductive `YValue` (the number
  payload is simplified to `Int`; no claim depends on numeric payloads).
* `HashMap<String, YValue>` is modelled by an association list
  `Frontmatter` with lookup `fmFind` (first match) and replacing insert
  `fmInsert`; only lookup and insert are used by the source.
* File I/O is factored out: `Entry::from_path` first reads the file into
  lines, then runs pure logic on them. `entry_from_lines` embeds that
  pure logic, taking the list of lines as input. The `path` and
  `file_metadata` fields of `Entry` are I/O artifacts and are omitted;
  the embedded record keeps `frontmatter`, `frontmatter_err`, `body`.
* The YAML decoder (`serde_yaml::from_str` into a string-keyed map) is an
  external library, so it is a parameter `decode` of the parser; its
  error value (`serde_yaml::Error`) is modelled opaquely as a `String`.
* Rust's `str::trim` is modelled by `rustTrim` (ASCII whitespace; the
  claims only involve ASCII) and `str::split(",")` by `splitComma`.
-/

/-- Model of `serde_yaml::Value`. -/
inductive YValue where
  | null : YValue
  | bool (b : Bool) : YValue
  | num (n : Int) : YValue
  | str (s : String) : YValue
  | seq (xs : List YValue) : YValue
  | map (kvs : List (YValue × YValue)) : YValue

/-- Model of `HashMap<String, YValue>`: an association list. -/
def Frontmatter : Type := List (String × YValue)

/-- Lookup in the frontmatter map (`HashMap::get` / `contains_key`). -/
def fmFind (m : Frontmatter) (k : String) : Option YValue :=
  match m with
  | [] => none
  | (k2, v) :: rest => if k2 = k then some v else fmFind rest k

/-- Replacing insert in the frontmatter map (`HashMap::insert`). -/
def fmInsert (k : String) (v : YValue) (m : Frontmatter) : Frontmatter :=
  (k, v) :: (List.filter (fun kv => kv.1 != k) m)

/-- ASCII whitespace, as used by Rust's `str::trim` on ASCII input. -/
def isWs (c : Char) : Bool :=
  c = ' ' || c = '\t' || c = '\n' || c = '\r'

/-- Model of Rust's `str::trim`: strip leading and trailing whitespace. -/
def rustTrim (s : String) : String :=
  ⟨(((s.data.dropWhile isWs).reverse.dropWhile isWs).reverse)⟩

/-- Model of Rust's `v.split(",")` on the character list of `v`: `n` commas
yield `n + 1` pieces; in particular the empty string yields `[[]]`. -/
def splitComma : List Char → List (List Char)
  | [] => [[]]
  | c :: rest =>
    if c = ',' then [] :: splitComma rest
    else
      match splitComma rest with
      | [] => [[c]]
      | p :: ps => (c :: p) :: ps

/-- Embedding of `normalize_tags` (src/filedb.rs lines 116-133): a string is
split on commas with each piece trimmed; a sequence passes through
unchanged; null, absence, and every other type yield the empty sequence. -/
def normalize_tags : Option YValue → YValue
  | some (YValue.str v) =>
      YValue.seq ((splitComma v.data).map (fun p => YValue.str (rustTrim ⟨p⟩)))
  | some (YValue.seq xs) => YValue.seq xs
  | some YValue.null => YValue.seq []
  | some _ => YValue.seq []
  | none => YValue.seq []

/-- The line-scanning loop of `Entry::from_path`: returns
`(rawfrontmatter, body, delimiter found?)`. The first line whose trimmed
content is `---` flips the target buffer from `rawfrontmatter` to `body`;
the delimiter line itself is pushed to neither. -/
def scanLines : List String → List String × List String × Bool
  | [] => ([], [], false)
  | l :: rest =>
    if rustTrim l = "---" then ([], rest, true)
    else
      match scanLines rest with
      | (fmls, bls, found) => (l :: fmls, bls, found)

/-- The parsed record (`Entry`), minus the I/O-only fields `path` and
`file_metadata`. `frontmatter_err` models `Option<serde_yaml::Error>`. -/
structure Entry where
  frontmatter : Frontmatter
  frontmatter_err : Option String
  body : String

/-- Embedding of the pure core of `Entry::from_path` (src/filedb.rs lines
37-90), parameterized by the external YAML decoder: scan for the delimiter,
decode the raw frontmatter block only when a delimiter was found, fall back
to the whole file as body on decode error, fall back to the raw frontmatter
lines when the body is empty, and unconditionally normalize `tags`. -/
def entry_from_lines (decode : String → Except String Frontmatter)
    (lines : List String) : Entry :=
  let sc := scanLines lines
  let rawfrontmatter := sc.1
  let body0 := sc.2.1
  let found := sc.2.2
  let dres : Frontmatter × Option String :=
    if found then
      match decode (String.intercalate "\n" rawfrontmatter) with
      | Except.error e => ([], some e)
      | Except.ok res => (res, none)
    else ([], none)
  let fm := dres.1
  let fm_err := dres.2
  let body1 := if fm_err.isSome then lines else body0
  let body2 := if body1.length = 0 then rawfrontmatter else body1
  { frontmatter := fmInsert "tags" (normalize_tags (fmFind fm "tags")) fm
    frontmatter_err := fm_err
    body := String.intercalate "\n" body2 }

/-- Model of `Value::as_str`. -/
def yAsStr : YValue → Option String
  | YValue.str s => some s
  | _ => none

/-- Model of `Value::as_sequence`. -/
def yAsSeq : YValue → Option (List YValue)
  | YValue.seq xs => some xs
  | _ => none

/-- The `as_str().unwrap()` loop of `get_tags`: `some` when every element is
a string, `none` (a panic in the source) otherwise. -/
def strList : List YValue → Option (List String)
  | [] => some []
  | v :: rest =>
    match yAsStr v with
    | none => none
    | some s =>
      match strList rest with
      | none => none
      | some ss => some (s :: ss)

/-- Possible outcomes of `Entry::get_tags`, which uses `unwrap` and can
therefore panic. -/
inductive TagsResult where
  | absent : TagsResult
  | panic : TagsResult
  | tags (ts : List String) : TagsResult

/-- Embedding of `Entry::get_tags` (src/filedb.rs lines 92-104): `absent`
models the `None` return when the key is missing; `panic` models the
`unwrap` panics on a non-sequence value or a non-string element. -/
def get_tags (e : Entry) : TagsResult :=
  match fmFind e.frontmatter "tags" with
  | none => TagsResult.absent
  | some v =>
    match yAsSeq v with
    | none => TagsResult.panic
    | some xs =>
      match strList xs with
      | none => TagsResult.panic
      | some ts => TagsResult.tags ts

/-- Embedding of `Entry::get_id` (src/filedb.rs lines 106-113). -/
def get_id (e : Entry) : Option String :=
  match fmFind e.frontmatter "id" with
  | none => none
  | some v =>
    match yAsStr v with
    | none => none
    | some s => if s.length = 0 then none else some s

/-- A filesystem path, reduced to what `is_jrnl_path` inspects: its file
name and whether it is a directory (`Path::is_dir` is an I/O check,
modelled as a field). -/
structure JPath where
  name : String
  isDir : Bool

/-- Split a file name around its last `.`: `some (before, after)` when a
dot exists, `none` otherwise. -/
def lastDotSplit : List Char → Option (List Char × List Char)
  | [] => none
  | c :: rest =>
    match lastDotSplit rest with
    | some (pre, post) => some (c :: pre, post)
    | none => if c = '.' then some ([], rest) else none

/-- Model of `Path::extension`: the portion of the file name after the
final dot, or `none` when there is no dot or the only dot is leading
(hidden files like `.md` have no extension). -/
def extension (name : String) : Option String :=
  match lastDotSplit name.data with
  | none => none
  | some (pre, post) => if pre = [] then none else some ⟨post⟩

/-- Embedding of `is_jrnl_path` (src/filedb.rs lines 137-149): false for
directories, true exactly for extension `md` or `txt`. -/
def is_jrnl_path (p : JPath) : Bool :=
  if p.isDir then false
  else
    match extension p.name with
    | some s => s = "md" || s = "txt"
    | none => false

/-! ## Helper lemmas about the line scan and the frontmatter map -/

/-- When no line trims to `---`, the scan puts every line in the raw
frontmatter buffer and reports that no delimiter was found. -/
theorem scanLines_noDelim (lines : List String)
    (h : ∀ l ∈ lines, rustTrim l ≠ "---") :
    scanLines lines = (lines, [], false) := by
  induction lines with
  | nil => rfl
  | cons l rest ih =>
    have hl : rustTrim l ≠ "---" := h l (by simp)
    simp [scanLines, hl, ih (fun x hx => h x (by simp [hx]))]

/-- When the first delimiter line is `d`, the scan returns the lines before
it as raw frontmatter and the lines after it as body. -/
theorem scanLines_delim (pre post : List String) (d : String)
    (hd : rustTrim d = "---") (hpre : ∀ l ∈ pre, rustTrim l ≠ "---") :
    scanLines (pre ++ d :: post) = (pre, post, true) := by
  induction pre with
  | nil => simp [scanLines, hd]
  | cons l rest ih =>
    have hl : rustTrim l ≠ "---" := hpre l (by simp)
    simp [scanLines, hl, ih (fun x hx => hpre x (by simp [hx]))]

/-- Inserting a key makes it findable with the inserted value. -/
theorem fmFind_fmInsert (k : String) (v : YValue) (m : Frontmatter) :
    fmFind (fmInsert k v m) k = some v := by
  simp [fmInsert, fmFind]

/-- The result of `normalize_tags` is always a sequence. -/
theorem normalize_tags_isSeq (o : Option YValue) :
    ∃ xs, normalize_tags o = YValue.seq xs := by
  match o with
  | none => exact ⟨[], rfl⟩
  | some YValue.null => exact ⟨[], rfl⟩
  | some (YValue.bool b) => exact ⟨[], rfl⟩
  | some (YValue.num n) => exact ⟨[], rfl⟩
  | some (YValue.str s) => exact ⟨_, rfl⟩
  | some (YValue.seq xs) => exact ⟨xs, rfl⟩
  | some (YValue.map kvs) => exact ⟨[], rfl⟩

/-! ## C1 -/

/-- C1 counterexample: the claim says that on a file with no `---` line a
whole-file decode is attempted, and that when that decode succeeds the
record carries the decoded mapping and an empty body. The code never
attempts a decode when no delimiter is found: with a decoder that succeeds
with the mapping `{a: 1}` on the single line `a: 1`, the resulting record
has body `"a: 1"` (not empty) and frontmatter `{tags: []}` (not the
decoded mapping), refuting the claim. -/
theorem C1_counterexample :
    ¬ (∀ (decode : String → Except String Frontmatter) (lines : List String)
        (m : Frontmatter),
        (∀ l ∈ lines, rustTrim l ≠ "---") →
        decode (String.intercalate "\n" lines) = Except.ok m →
        (entry_from_lines decode lines).frontmatter =
          fmInsert "tags" (normalize_tags (fmFind m "tags")) m ∧
        (entry_from_lines decode lines).body = "") := by
  intro h
  have hc := h (fun _ => Except.ok [("a", YValue.num 1)]) ["a: 1"]
    [("a", YValue.num 1)] (by decide) rfl
  have hbody : (entry_from_lines (fun _ => Except.ok [("a", YValue.num 1)])
      ["a: 1"]).body = "a: 1" := rfl
  rw [hbody] at hc
  exact absurd hc.2 (by decide)

/-- C1 (amended): when no line of the file trims to `---`, no decode is
attempted at all: the record has empty metadata (only the unconditionally
inserted normalized `tags` key), no metadata error, and the whole file
content as body. -/
theorem C1_noDelim_amended (decode : String → Except String Frontmatter)
    (lines : List String) (h : ∀ l ∈ lines, rustTrim l ≠ "---") :
    entry_from_lines decode lines =
      { frontmatter := [("tags", YValue.seq [])]
        frontmatter_err := none
        body := String.intercalate "\n" lines } := by
  simp [entry_from_lines, scanLines_noDelim lines h, fmInsert, fmFind,
    normalize_tags]

/-- C1 witness: the amended no-delimiter behavior evaluated on the
two-line prose file from the spec's own example. -/
theorem C1_noDelim_amended_witness :
    entry_from_lines (fun _ => Except.error "not a mapping")
      ["just prose", "more text"] =
      { frontmatter := [("tags", YValue.seq [])]
        frontmatter_err := none
        body := String.intercalate "\n" ["just prose", "more text"] } :=
  C1_noDelim_amended (fun _ => Except.error "not a mapping")
    ["just prose", "more text"] (by decide)

/-! ## C2 -/

/-- C2 counterexample: the claim says the body is exactly the lines after
the delimiter, so a file ending at the delimiter has an empty body. On the
file `a: 1` / `---` with a decoder that succeeds, the code's
`body.len() == 0` fallback kicks in and the body becomes the raw
frontmatter text `"a: 1"`, not the empty string. -/
theorem C2_counterexample :
    ¬ (∀ (decode : String → Except String Frontmatter)
        (pre post : List String) (d : String) (m : Frontmatter),
        rustTrim d = "---" →
        (∀ l ∈ pre, rustTrim l ≠ "---") →
        decode (String.intercalate "\n" pre) = Except.ok m →
        (entry_from_lines decode (pre ++ d :: post)).body =
          String.intercalate "\n" post) := by
  intro h
  have hc := h (fun _ => Except.ok [("a", YValue.num 1)]) ["a: 1"] [] "---"
    [("a", YValue.num 1)] (by decide) (by decide) rfl
  have hbody : (entry_from_lines (fun _ => Except.ok [("a", YValue.num 1)])
      (["a: 1"] ++ "---" :: [])).body = "a: 1" := rfl
  rw [hbody] at hc
  exact absurd hc (by decide)

/-- C2 (amended): with a delimiter and a successful decode, the metadata is
the decoded mapping (after the unconditional `tags` normalization) and the
body is the lines strictly after the delimiter — except when no lines
follow the delimiter, in which case the `body.len() == 0` fallback makes
the body the raw frontmatter lines instead of the empty string. -/
theorem C2_delim_ok_amended (decode : String → Except String Frontmatter)
    (pre post : List String) (d : String) (m : Frontmatter)
    (hd : rustTrim d = "---") (hpre : ∀ l ∈ pre, rustTrim l ≠ "---")
    (hdec : decode (String.intercalate "\n" pre) = Except.ok m) :
    entry_from_lines decode (pre ++ d :: post) =
      { frontmatter := fmInsert "tags" (normalize_tags (fmFind m "tags")) m
        frontmatter_err := none
        body := String.intercalate "\n" (if post.isEmpty then pre else post) } := by
  simp [entry_from_lines, scanLines_delim pre post d hd hpre, hdec,
    List.isEmpty_iff, List.length_eq_zero]

/-- C2 witness: the amended behavior evaluated on the spec's example file
`tags: a, b, c` / `id: x1` / `---` / `hello`. -/
theorem C2_delim_ok_amended_witness :
    entry_from_lines
      (fun _ => Except.ok [("tags", YValue.str "a, b, c"), ("id", YValue.str "x1")])
      (["tags: a, b, c", "id: x1"] ++ "---" :: ["hello"]) =
      { frontmatter :=
          fmInsert "tags"
            (normalize_tags (fmFind
              [("tags", YValue.str "a, b, c"), ("id", YValue.str "x1")] "tags"))
            [("tags", YValue.str "a, b, c"), ("id", YValue.str "x1")]
        frontmatter_err := none
        body := String.intercalate "\n"
          (if (["hello"] : List String).isEmpty then ["tags: a, b, c", "id: x1"]
           else ["hello"]) } :=
  C2_delim_ok_amended
    (fun _ => Except.ok [("tags", YValue.str "a, b, c"), ("id", YValue.str "x1")])
    ["tags: a, b, c", "id: x1"] ["hello"] "---"
    [("tags", YValue.str "a, b, c"), ("id", YValue.str "x1")]
    (by decide) (by decide) rfl

/-! ## C5 -/

/-- C5: with a delimiter whose preceding block fails to decode, the parse
still yields a record (no error at the walk layer): the metadata error is
set to the decode diagnostic, the body is the ENTIRE original file content
(delimiter line included), and the metadata is empty apart from the
unconditional `tags` insertion. -/
theorem C5_delim_err (decode : String → Except String Frontmatter)
    (pre post : List String) (d : String) (e : String)
    (hd : rustTrim d = "---") (hpre : ∀ l ∈ pre, rustTrim l ≠ "---")
    (hdec : decode (String.intercalate "\n" pre) = Except.error e) :
    entry_from_lines decode (pre ++ d :: post) =
      { frontmatter := [("tags", YValue.seq [])]
        frontmatter_err := some e
        body := String.intercalate "\n" (pre ++ d :: post) } := by
  simp [entry_from_lines, scanLines_delim pre post d hd hpre, hdec, fmInsert,
    fmFind, normalize_tags]

/-- C5 witness: the decode-failure fallback evaluated on a concrete file
`not: valid: yaml` / `---` / `body line`. -/
theorem C5_delim_err_witness :
    entry_from_lines (fun _ => Except.error "mapping expected")
      (["not: valid: yaml"] ++ "---" :: ["body line"]) =
      { frontmatter := [("tags", YValue.seq [])]
        frontmatter_err := some "mapping expected"
        body := String.intercalate "\n" (["not: valid: yaml"] ++ "---" :: ["body line"]) } :=
  C5_delim_err (fun _ => Except.error "mapping expected")
    ["not: valid: yaml"] ["body line"] "---" "mapping expected"
    (by decide) (by decide) rfl

/-! ## C3 -/

/-- The frontmatter of any parsed record is some map with the normalized
`tags` value inserted for key `tags`. -/
theorem entry_frontmatter_shape (decode : String → Except String Frontmatter)
    (lines : List String) :
    ∃ fm : Frontmatter,
      (entry_from_lines decode lines).frontmatter =
        fmInsert "tags" (normalize_tags (fmFind fm "tags")) fm :=
  ⟨_, rfl⟩

/-- C3 counterexample: the claim says the `tags` value is always a sequence
of strings and the accessor never fails. A decoded mapping whose `tags` is
the sequence `[1]` passes through normalization unchanged, and `get_tags`
then panics on the `as_str().unwrap()` of the non-string element. -/
theorem C3_counterexample :
    ¬ (∀ (decode : String → Except String Frontmatter) (lines : List String),
        get_tags (entry_from_lines decode lines) ≠ TagsResult.panic) := by
  intro h
  exact h (fun _ => Except.ok [("tags", YValue.seq [YValue.num 1])])
    ["tags: [1]", "---", "b"] rfl

/-- C3 (amended): after any parse the key `tags` is present and its value
is a sequence — but not necessarily a sequence of strings, since a decoded
sequence passes through unchanged. The accessor never reports the key as
absent; it returns the elements when they are all strings and panics
otherwise. -/
theorem C3_tags_always_seq_amended (decode : String → Except String Frontmatter)
    (lines : List String) :
    ∃ xs : List YValue,
      fmFind (entry_from_lines decode lines).frontmatter "tags" =
        some (YValue.seq xs) ∧
      get_tags (entry_from_lines decode lines) ≠ TagsResult.absent ∧
      get_tags (entry_from_lines decode lines) =
        (match strList xs with
         | some ts => TagsResult.tags ts
         | none => TagsResult.panic) := by
  obtain ⟨fm, hfm⟩ := entry_frontmatter_shape decode lines
  obtain ⟨xs, hxs⟩ := normalize_tags_isSeq (fmFind fm "tags")
  have hfind : fmFind (entry_from_lines decode lines).frontmatter "tags" =
      some (YValue.seq xs) := by
    rw [hfm, fmFind_fmInsert, hxs]
  have hget : get_tags (entry_from_lines decode lines) =
      (match strList xs with
       | some ts => TagsResult.tags ts
       | none => TagsResult.panic) := by
    cases h : strList xs with
    | none => simp [get_tags, hfind, yAsSeq, h]
    | some ts => simp [get_tags, hfind, yAsSeq, h]
  refine ⟨xs, hfind, ?_, hget⟩
  rw [hget]
  cases h : strList xs <;> simp

/-! ## C6 -/

/-- Splitting a comma-free character list yields that list as the single
piece. -/
theorem splitComma_no_comma (cs : List Char) (h : ∀ c ∈ cs, c ≠ ',') :
    splitComma cs = [cs] := by
  induction cs with
  | nil => rfl
  | cons c rest ih =>
    have hc : c ≠ ',' := h c (by simp)
    simp [splitComma, hc, ih (fun x hx => h x (by simp [hx]))]

/-- C6: the full case analysis of `normalize_tags`. It is total by
construction; absent and null yield the empty sequence; a string is split
on commas with each piece trimmed (so a comma-free string yields a
one-element sequence and the empty string yields `[""]`); a sequence passes
through unchanged with no per-element trimming or coercion; booleans,
numbers and mappings yield the empty sequence. -/
theorem C6_normalize_tags_cases :
    normalize_tags none = YValue.seq [] ∧
    normalize_tags (some YValue.null) = YValue.seq [] ∧
    (∀ s : String, normalize_tags (some (YValue.str s)) =
      YValue.seq ((splitComma s.data).map (fun p => YValue.str (rustTrim ⟨p⟩)))) ∧
    (∀ s : String, (∀ c ∈ s.data, c ≠ ',') →
      normalize_tags (some (YValue.str s)) = YValue.seq [YValue.str (rustTrim s)]) ∧
    normalize_tags (some (YValue.str "")) = YValue.seq [YValue.str ""] ∧
    (∀ xs : List YValue, normalize_tags (some (YValue.seq xs)) = YValue.seq xs) ∧
    (∀ b : Bool, normalize_tags (some (YValue.bool b)) = YValue.seq []) ∧
    (∀ n : Int, normalize_tags (some (YValue.num n)) = YValue.seq []) ∧
    (∀ kvs : List (YValue × YValue),
      normalize_tags (some (YValue.map kvs)) = YValue.seq []) := by
  refine ⟨rfl, rfl, fun s => rfl, ?_, rfl, fun xs => rfl, fun b => rfl,
    fun n => rfl, fun kvs => rfl⟩
  intro s h
  simp [normalize_tags, splitComma_no_comma s.data h]

/-- C6 witness: the comma-free case of the case analysis applied to the
concrete string `a b`. -/
theorem C6_normalize_tags_cases_witness :
    normalize_tags (some (YValue.str "a b")) =
      YValue.seq [YValue.str (rustTrim "a b")] :=
  C6_normalize_tags_cases.2.2.2.1 "a b" (by decide)

/-! ## C7 -/

/-- A string has length zero exactly when it is empty. -/
theorem string_length_zero_iff (s : String) : s.length = 0 ↔ s = "" := by
  constructor
  · intro h
    cases s with
    | mk d =>
      cases d with
      | nil => rfl
      | cons c cs => simp [String.length] at h
  · intro h
    subst h
    rfl

/-- C7: on a record whose `id` metadata value is a string (or missing), the
accessor returns `none` exactly when the key is missing or the string is
empty, and otherwise returns the string; the empty string is handled at the
accessor and is not removed from the map. -/
theorem C7_get_id_empty_absent (e : Entry)
    (h : fmFind e.frontmatter "id" = none ∨
      ∃ s, fmFind e.frontmatter "id" = some (YValue.str s)) :
    (get_id e = none ↔
      (fmFind e.frontmatter "id" = none ∨
        fmFind e.frontmatter "id" = some (YValue.str ""))) ∧
    (∀ s : String, fmFind e.frontmatter "id" = some (YValue.str s) → s ≠ "" →
      get_id e = some s) := by
  rcases h with h | ⟨s, h⟩
  · refine ⟨by simp [get_id, h], ?_⟩
    intro t ht hne
    rw [h] at ht
    exact Option.noConfusion ht
  · refine ⟨?_, ?_⟩
    · rw [get_id, h]
      by_cases hs : s = ""
      · subst hs
        have h0 : ("" : String).length = 0 := rfl
        simp [yAsStr, h0]
      · have hlen : s.length ≠ 0 := fun hc => hs ((string_length_zero_iff s).1 hc)
        simp [yAsStr, hlen, hs]
    · intro t ht hne
      rw [get_id, ht]
      have hlen : t.length ≠ 0 := fun hc => hne ((string_length_zero_iff t).1 hc)
      simp [yAsStr, hlen]

/-- C7 witness: applied to a record with `id` mapped to `x1`, the accessor
returns `x1`. -/
theorem C7_get_id_empty_absent_witness :
    get_id ⟨[("id", YValue.str "x1")], none, "hello"⟩ = some "x1" :=
  (C7_get_id_empty_absent ⟨[("id", YValue.str "x1")], none, "hello"⟩
    (Or.inr ⟨"x1", rfl⟩)).2 "x1" rfl (by decide)

/-! ## C9 -/

/-- C9: when the `id` metadata value is present but not a string, `get_id`
returns `none` (the source uses the `?` operator on `as_str`, so it neither
errors nor panics). -/
theorem C9_get_id_nonstring (e : Entry) (v : YValue)
    (hfind : fmFind e.frontmatter "id" = some v)
    (hns : ∀ s : String, v ≠ YValue.str s) :
    get_id e = none := by
  rw [get_id, hfind]
  cases v with
  | str s => exact absurd rfl (hns s)
  | null => rfl
  | bool b => rfl
  | num n => rfl
  | seq xs => rfl
  | map kvs => rfl

/-- C9 witness: a record whose `id` is the number `42` yields an absent
id. -/
theorem C9_get_id_nonstring_witness :
    get_id ⟨[("id", YValue.num 42)], none, "b"⟩ = none :=
  C9_get_id_nonstring ⟨[("id", YValue.num 42)], none, "b"⟩ (YValue.num 42)
    rfl (fun s h => by cases h)

/-! ## C8 and C10: the eligibility filter -/

/-- Characterization of `is_jrnl_path`: eligible exactly for non-directory
paths whose extension is `md` or `txt`. -/
theorem is_jrnl_path_eq_true_iff (p : JPath) :
    is_jrnl_path p = true ↔
      (p.isDir = false ∧
        (extension p.name = some "md" ∨ extension p.name = some "txt")) := by
  cases p with
  | mk name isDir =>
    cases isDir with
    | true => simp [is_jrnl_path]
    | false =>
      cases hext : extension name with
      | none => simp [is_jrnl_path, hext]
      | some s => simp [is_jrnl_path, hext]

/-- C8: the eligibility predicate returns false for every directory, and on
non-directories returns true exactly when the extension is `md` or `txt`
(any other extension, or no extension, is excluded). -/
theorem C8_is_jrnl_path_spec (p : JPath) :
    (p.isDir = true → is_jrnl_path p = false) ∧
    (p.isDir = false →
      (is_jrnl_path p = true ↔
        (extension p.name = some "md" ∨ extension p.name = some "txt"))) := by
  constructor
  · intro hdir
    cases hjp : is_jrnl_path p with
    | false => rfl
    | true =>
      have := (is_jrnl_path_eq_true_iff p).1 hjp
      rw [hdir] at this
      exact absurd this.1 (by simp)
  · intro hdir
    rw [is_jrnl_path_eq_true_iff]
    simp [hdir]

/-- C8 witness: a regular file named `note.txt` is eligible. -/
theorem C8_is_jrnl_path_spec_witness :
    is_jrnl_path ⟨"note.txt", false⟩ = true :=
  ((C8_is_jrnl_path_spec ⟨"note.txt", false⟩).2 rfl).mpr (Or.inr (by decide))

/-- C10: extension matching is case-sensitive and exact — every eligible
non-directory has extension exactly `md` or `txt`, and the concrete
uppercase variants `.MD`, `.Md`, `.TXT` are excluded while `.md` is
accepted. -/
theorem C10_extension_case_sensitive :
    (∀ p : JPath, p.isDir = false → is_jrnl_path p = true →
      extension p.name = some "md" ∨ extension p.name = some "txt") ∧
    is_jrnl_path ⟨"a.MD", false⟩ = false ∧
    is_jrnl_path ⟨"a.Md", false⟩ = false ∧
    is_jrnl_path ⟨"a.TXT", false⟩ = false ∧
    is_jrnl_path ⟨"a.md", false⟩ = true := by
  refine ⟨?_, by decide, by decide, by decide, by decide⟩
  intro p _ hjp
  exact ((is_jrnl_path_eq_true_iff p).1 hjp).2

/-- C10 witness: the general part applied to the concrete eligible path
`b.txt`. -/
theorem C10_extension_case_sensitive_witness :
    extension "b.txt" = some "md" ∨ extension "b.txt" = some "txt" :=
  C10_extension_case_sensitive.1 ⟨"b.txt", false⟩ rfl (by decide)

/-! ## C4: the concurrent walker (`walk_journal`, src/filedb.rs lines 159-185)

The fan-out/fan-in mechanism is modelled as a nondeterministic transition
system. `walk_journal` dispatches one task per eligible path (a clone of
the mpsc sender moves into each task), drops the original sender, and
collects `rx.iter()`. A task's `send` is modelled by moving its result
into the channel buffer (`exec`, which also drops that task's sender
clone); the receiving loop is modelled by `recv`. The iteration over `rx`
can only terminate once every sender clone has been dropped and the
buffer drained, i.e. in a state with no pending task and an empty buffer
— exactly the final states below. Directory traversal is I/O, so the
enumeration produced by `WalkDir` is modelled as an arbitrary list of
paths, to which the source applies the `is_jrnl_path` filter. -/

/-- State of one `walk_journal` call: tasks dispatched but not yet run,
results sent but not yet received, and results collected by `rx.iter()`. -/
structure PoolState (T : Type) where
  pending : List T
  inflight : List T
  collected : List T

/-- One scheduler step: either some pending task runs and sends its result
(dropping its sender clone), or the collecting loop receives the oldest
buffered result. -/
inductive PoolStep {T : Type} : PoolState T → PoolState T → Prop
  | exec (x : T) (p1 p2 infl coll : List T) :
      PoolStep ⟨p1 ++ x :: p2, infl, coll⟩ ⟨p1 ++ p2, infl ++ [x], coll⟩
  | recv (x : T) (pend infl coll : List T) :
      PoolStep ⟨pend, x :: infl, coll⟩ ⟨pend, infl, coll ++ [x]⟩

/-- Initial state of `walk_journal jrnl_path path_fn`: one pending task per
eligible path of the traversal, nothing sent, nothing collected. -/
def walkInit {T : Type} (path_fn : JPath → T) (entries : List JPath) :
    PoolState T :=
  ⟨(entries.filter is_jrnl_path).map path_fn, [], []⟩

/-- Reachability of a state in one `walk_journal` call under any
interleaving of task executions and receives. -/
def WalkReach {T : Type} (path_fn : JPath → T) (entries : List JPath)
    (s : PoolState T) : Prop :=
  Relation.ReflTransGen PoolStep (walkInit path_fn entries) s

/-- Every scheduler step preserves the combined contents of the three
buffers up to permutation: a result moves between buffers, never
duplicated, never dropped. -/
theorem poolStep_perm {T : Type} {s s' : PoolState T} (h : PoolStep s s') :
    (s'.pending ++ s'.inflight ++ s'.collected).Perm
      (s.pending ++ s.inflight ++ s.collected) := by
  cases h with
  | exec x p1 p2 infl coll =>
    refine List.Perm.append_right coll ?_
    have h1 : ((p1 ++ p2) ++ (infl ++ [x])).Perm ((p1 ++ p2) ++ (x :: infl)) :=
      List.Perm.append_left (p1 ++ p2) (List.perm_append_singleton x infl)
    have h2 : ((p1 ++ p2) ++ (x :: infl)).Perm (x :: ((p1 ++ p2) ++ infl)) :=
      List.perm_middle
    have h3 : ((p1 ++ x :: p2) ++ infl).Perm (x :: ((p1 ++ p2) ++ infl)) :=
      List.Perm.append_right infl List.perm_middle
    exact (h1.trans h2).trans h3.symm
  | recv x pend infl coll =>
    have h2 : ((pend ++ infl) ++ (coll ++ [x])).Perm ((pend ++ infl) ++ (x :: coll)) :=
      List.Perm.append_left (pend ++ infl) (List.perm_append_singleton x coll)
    have h3 : ((pend ++ infl) ++ (x :: coll)).Perm (x :: ((pend ++ infl) ++ coll)) :=
      List.perm_middle
    have h4 : ((pend ++ x :: infl) ++ coll).Perm (x :: ((pend ++ infl) ++ coll)) :=
      List.Perm.append_right coll List.perm_middle
    exact (h2.trans h3).trans h4.symm

/-- In every reachable state of one `walk_journal` call, the three buffers
together hold exactly one result per eligible path. -/
theorem walkReach_perm {T : Type} (path_fn : JPath → T) (entries : List JPath)
    (s : PoolState T) (h : WalkReach path_fn entries s) :
    (s.pending ++ s.inflight ++ s.collected).Perm
      ((entries.filter is_jrnl_path).map path_fn) := by
  induction h with
  | refl => simp [walkInit]
  | tail hab hbc ih => exact (poolStep_perm hbc).trans ih

/-- C4: whenever `walk_journal` can return — i.e. in any reachable state in
which every dispatched task has run (its sender clone dropped) and the
channel has been drained — the collection holds exactly one result per
eligible path, as a permutation of the per-path results; in particular its
length equals the number of eligible paths, and no result was dropped. The
blocking guarantee is the contrapositive: no state with an unfinished task
is final, since its sender clone keeps the channel open. -/
theorem C4_walk_collects_all {T : Type} (path_fn : JPath → T)
    (entries : List JPath) (s : PoolState T)
    (hreach : WalkReach path_fn entries s)
    (hdone : s.pending = [] ∧ s.inflight = []) :
    s.collected.Perm ((entries.filter is_jrnl_path).map path_fn) ∧
    s.collected.length = (entries.filter is_jrnl_path).length := by
  have h := walkReach_perm path_fn entries s hreach
  rw [hdone.1, hdone.2] at h
  simp only [List.nil_append] at h
  exact ⟨h, h.length_eq.trans (List.length_map _ _)⟩

/-- C4 witness: a concrete two-step schedule over the enumeration
`[a.md (file), sub (directory)]` — the directory is filtered out, the one
task executes and its result is received — reaches a final state whose
collection is exactly the one mapped result. -/
theorem C4_walk_collects_all_witness :
    (["a.md"] : List String).Perm
      (([JPath.mk "a.md" false, JPath.mk "sub" true].filter is_jrnl_path).map
        (fun p => p.name)) ∧
    (["a.md"] : List String).length =
      ([JPath.mk "a.md" false, JPath.mk "sub" true].filter is_jrnl_path).length := by
  have hstep1 : PoolStep (⟨["a.md"], [], []⟩ : PoolState String)
      ⟨[], ["a.md"], []⟩ := PoolStep.exec "a.md" [] [] [] []
  have hstep2 : PoolStep (⟨[], ["a.md"], []⟩ : PoolState String)
      ⟨[], [], ["a.md"]⟩ := PoolStep.recv "a.md" [] [] []
  have hreach : WalkReach (fun p => p.name)
      [JPath.mk "a.md" false, JPath.mk "sub" true] ⟨[], [], ["a.md"]⟩ := by
    unfold WalkReach
    have h0 : walkInit (fun p => p.name)
        [JPath.mk "a.md" false, JPath.mk "sub" true] =
        (⟨["a.md"], [], []⟩ : PoolState String) := rfl
    rw [h0]
    exact Relation.ReflTransGen.head hstep1 (Relation.ReflTransGen.single hstep2)
  exact C4_walk_collects_all (fun p => p.name)
    [JPath.mk "a.md" false, JPath.mk "sub" true] ⟨[], [], ["a.md"]⟩ hreach ⟨rfl, rfl⟩
